import Mathlib

/-!
Verification of `scripts/userscripts/readinglist.py`: the mailbox-as-queue
pipeline that turns each qualifying mail message into one formatted entry and
merges the batch into the "Reading list" wikitext document.

Strings are modelled as `List Char`.  Python's whitespace handling
(`str.strip`, `str.split`, regex `\s`) is modelled over the ASCII whitespace
characters, which are the only whitespace characters the program's data
contains.
-/

namespace ReadingList

/-- ASCII whitespace, the subset of Python's `str.isspace` relevant here. -/
def isPySpace (c : Char) : Bool :=
  c == ' ' || c == '\t' || c == '\n' || c == '\r' || c == '\x0b' || c == '\x0c'

/-- ASCII lower-casing, modelling `str.lower` / `re.I` on the ASCII patterns
used by the script. -/
def lowerChar (c : Char) : Char :=
  if 'A' ≤ c ∧ c ≤ 'Z' then Char.ofNat (c.toNat + 32) else c

/-- `str.strip()`: drop leading and trailing whitespace. -/
def pyStrip (l : List Char) : List Char :=
  ((l.dropWhile isPySpace).reverse.dropWhile isPySpace).reverse

/-- `str.rstrip()`: drop trailing whitespace. -/
def rstrip (l : List Char) : List Char :=
  (l.reverse.dropWhile isPySpace).reverse

/-- `body.split(maxsplit=1)` on an already-stripped string: the first
whitespace-delimited token, and the remainder after the first whitespace run
(`none` when there is no remainder). -/
def splitMax1 (body : List Char) : List Char × Option (List Char) :=
  let tok := body.takeWhile (fun c => !isPySpace c)
  let rest := (body.dropWhile (fun c => !isPySpace c)).dropWhile isPySpace
  (tok, if rest.isEmpty then none else some rest)

/-- Python truthiness of an optional string: present and non-empty. -/
def truthyOpt : Option (List Char) → Bool
  | none => false
  | some s => !s.isEmpty

/-- `entry[1:-1]` applied when the token starts with `<` and ends with `>`. -/
def stripAngles (l : List Char) : List Char :=
  if l.head? = some '<' ∧ l.getLast? = some '>' then (l.drop 1).dropLast else l

/-- `entry.split(":", 1)[0].lower() in ("http", "https")`. -/
def schemeOk (tok : List Char) : Bool :=
  let scheme := (tok.takeWhile (fun c => c ≠ ':')).map lowerChar
  decide (scheme = "http".data ∨ scheme = "https".data)

/-- Case-insensitive prefix test: does `s` start with the (lower-case)
pattern `p`?  Models an `re.I` anchored literal match. -/
def ciStartsWith : List Char → List Char → Bool
  | [], _ => true
  | _ :: _, [] => false
  | p :: ps, c :: cs => lowerChar c == p && ciStartsWith ps cs

/-! ### The rewrite rules (`Robot.REWRITES`) -/

def wikipediaMark : List Char := "wikipedia:".data

/-- The four concrete strings matched by
`^https?://en\.(m\.)?wikipedia\.org/wiki/` (at most one can match a given
input, so the alternation order is irrelevant). -/
def wp1 : List Char := "https://en.m.wikipedia.org/wiki/".data
def wp2 : List Char := "https://en.wikipedia.org/wiki/".data
def wp3 : List Char := "http://en.m.wikipedia.org/wiki/".data
def wp4 : List Char := "http://en.wikipedia.org/wiki/".data

/-- Rule 1: `re.sub(r"^https?://en\.(m\.)?wikipedia\.org/wiki/",
"wikipedia:", entry, 1, re.I)`. -/
def rw1 (s : List Char) : List Char :=
  if ciStartsWith wp1 s then wikipediaMark ++ s.drop wp1.length
  else if ciStartsWith wp2 s then wikipediaMark ++ s.drop wp2.length
  else if ciStartsWith wp3 s then wikipediaMark ++ s.drop wp3.length
  else if ciStartsWith wp4 s then wikipediaMark ++ s.drop wp4.length
  else s

def yb1 : List Char := "https://youtu.be/".data
def yb2 : List Char := "http://youtu.be/".data
def ytReplacement : List Char := "https://www.youtube.com/watch?v=".data

/-- Rule 2: `re.sub(r"^https?://youtu\.be/",
"https://www.youtube.com/watch?v=", entry, 1, re.I)`. -/
def rw2 (s : List Char) : List Char :=
  if ciStartsWith yb1 s then ytReplacement ++ s.drop yb1.length
  else if ciStartsWith yb2 s then ytReplacement ++ s.drop yb2.length
  else s

/-- Character class `[a-z0-9+/]` under `re.I`. -/
def isIgClassChar (c : Char) : Bool :=
  ('a' ≤ lowerChar c && lowerChar c ≤ 'z') || ('0' ≤ c && c ≤ '9') ||
    c == '+' || c == '/'

def igshidPat : List Char := "?igshid=".data

/-- Length of the match of `\?igshid=[a-z0-9+/]*={0,2}` (case-insensitive,
greedy) when it matches at the head of `s`. -/
def igshidMatchLen? (s : List Char) : Option Nat :=
  if ciStartsWith igshidPat s then
    let rest := s.drop 8
    let n := (rest.takeWhile isIgClassChar).length
    let rest2 := rest.drop n
    let m := min ((rest2.takeWhile (fun c => c == '=')).length) 2
    some (8 + n + m)
  else none

/-- Rule 3: `re.sub(r"\?igshid=[a-z0-9+/]*={0,2}", "", entry, 1, re.I)`:
remove the leftmost match, leaving the rest of the string untouched. -/
def rw3 : List Char → List Char
  | [] => []
  | c :: cs =>
    match igshidMatchLen? (c :: cs) with
    | some n => (c :: cs).drop n
    | none => c :: rw3 cs

/-- `Robot.REWRITES`: the ordered rule list. -/
def REWRITES : List (List Char → List Char) := [rw1, rw2, rw3]

/-- The `for pattern, repl in cls.REWRITES` loop: apply each rule once, in
listed order. -/
def applyRewrites (s : List Char) : List Char :=
  REWRITES.foldl (fun e f => f e) s

/-! ### `urllib.parse.unquote` -/

def isHexDigit (c : Char) : Bool :=
  ('0' ≤ c && c ≤ '9') || ('a' ≤ c && c ≤ 'f') || ('A' ≤ c && c ≤ 'F')

def hexVal (c : Char) : Nat :=
  if '0' ≤ c ∧ c ≤ '9' then c.toNat - 48
  else if 'a' ≤ c ∧ c ≤ 'f' then c.toNat - 87
  else c.toNat - 55

def isContByte (b : Nat) : Bool := 0x80 ≤ b && b ≤ 0xbf

def replacementChar : Char := Char.ofNat 0xfffd

/-- UTF-8 decoding with replacement of malformed sequences, as
`bytes.decode("utf-8", "replace")` does for the byte runs that
`urllib.parse.unquote` percent-decodes. -/
def utf8DecodeReplace : List Nat → List Char
  | [] => []
  | b :: bs =>
    if b < 0x80 then Char.ofNat b :: utf8DecodeReplace bs
    else if 0xc2 ≤ b ∧ b ≤ 0xdf then
      match bs with
      | b2 :: bs2 =>
        if isContByte b2 then
          Char.ofNat ((b - 0xc0) * 64 + (b2 - 0x80)) :: utf8DecodeReplace bs2
        else replacementChar :: utf8DecodeReplace (b2 :: bs2)
      | [] => [replacementChar]
    else if 0xe0 ≤ b ∧ b ≤ 0xef then
      match bs with
      | b2 :: b3 :: bs3 =>
        if (if b = 0xe0 then 0xa0 ≤ b2 && b2 ≤ 0xbf
            else if b = 0xed then 0x80 ≤ b2 && b2 ≤ 0x9f
            else isContByte b2) && isContByte b3 then
          Char.ofNat ((b - 0xe0) * 4096 + (b2 - 0x80) * 64 + (b3 - 0x80)) ::
            utf8DecodeReplace bs3
        else replacementChar :: utf8DecodeReplace (b2 :: b3 :: bs3)
      | [b2] => replacementChar :: utf8DecodeReplace [b2]
      | [] => [replacementChar]
    else if 0xf0 ≤ b ∧ b ≤ 0xf4 then
      match bs with
      | b2 :: b3 :: b4 :: bs4 =>
        if (if b = 0xf0 then 0x90 ≤ b2 && b2 ≤ 0xbf
            else if b = 0xf4 then 0x80 ≤ b2 && b2 ≤ 0x8f
            else isContByte b2) && isContByte b3 && isContByte b4 then
          Char.ofNat ((b - 0xf0) * 262144 + (b2 - 0x80) * 4096 +
              (b3 - 0x80) * 64 + (b4 - 0x80)) :: utf8DecodeReplace bs4
        else replacementChar :: utf8DecodeReplace (b2 :: b3 :: b4 :: bs4)
      | [b2, b3] => replacementChar :: utf8DecodeReplace [b2, b3]
      | [b2] => replacementChar :: utf8DecodeReplace [b2]
      | [] => [replacementChar]
    else replacementChar :: utf8DecodeReplace bs

/-- `urllib.parse.unquote`: literal characters pass through; each maximal run
of `%XX` hex escapes is decoded as one UTF-8 byte string; a `%` not followed
by two hex digits is literal. -/
def unquoteAux (acc : List Nat) : List Char → List Char
  | '%' :: a :: b :: rest =>
    if isHexDigit a && isHexDigit b then
      unquoteAux (acc ++ [hexVal a * 16 + hexVal b]) rest
    else utf8DecodeReplace acc ++ '%' :: unquoteAux [] (a :: b :: rest)
  | c :: rest => utf8DecodeReplace acc ++ c :: unquoteAux [] rest
  | [] => utf8DecodeReplace acc

def unquote (s : List Char) : List Char := unquoteAux [] s

/-- `.replace("_", " ")`. -/
def underscoreToSpace (l : List Char) : List Char :=
  l.map (fun c => if c = '_' then ' ' else c)

/-! ### `Robot.entry_for` -/

/-- One decoded queue message: the optional To/Cc/Bcc/Subject/Date header
values, the content of the first `text/plain` body part (absent when there is
none), and the IMAP UID attached by `IMAP4JobQueue.messages`. -/
structure Msg where
  «to» : Option (List Char) := none
  cc : Option (List Char) := none
  bcc : Option (List Char) := none
  subject : Option (List Char) := none
  date : Option (List Char) := none
  body : Option (List Char) := none
  uid : Nat := 0
deriving DecidableEq

/-- Entry construction for one token/subject pair (source lines 162-170):
the `wikipedia:` double-bracket variant with an italicised quoted subject, or
the single-bracket link pairing token and subject, brackets omitted when the
combined text already contains one. -/
def renderEntry (tok : List Char) (subject : Option (List Char)) : List Char :=
  if wikipediaMark.isPrefixOf tok then
    let e := '[' :: '[' :: (underscoreToSpace (unquote tok) ++ [']', ']'])
    if truthyOpt subject then
      e ++ " \x27\x27<q>".data ++ subject.getD [] ++ "</q>\x27\x27".data
    else e
  else if truthyOpt subject then
    let e := tok ++ ' ' :: subject.getD []
    if e.contains '[' || e.contains ']' then e else '[' :: (e ++ [']'])
  else tok

/-- The opening of the timestamp-marker template. -/
def atOpen : List Char := "\x7b\x7bat|".data

/-- The final assembly (source lines 171-175): prefix a timestamp marker
(`at`-template, source line 173) when a Date header is present, then append
the body remainder. -/
def finishEntry (entry : List Char) (date rem : Option (List Char)) :
    List Char :=
  let e := match date with
    | some d => atOpen ++ d ++ ("\x7d\x7d ".data ++ entry)
    | none => entry
  match rem with
  | some r => e ++ ' ' :: r
  | none => e

/-- The body of `entry_for` once the plain-text content, the stripped
subject and the date are in hand. -/
def entryForBody (body : List Char) (subject date : Option (List Char)) :
    Option (List Char) :=
  if body.isEmpty then none
  else
    let tok := (splitMax1 body).1
    let rem := (splitMax1 body).2
    if tok.isEmpty then none
    else
      let tok := stripAngles tok
      if truthyOpt subject && !schemeOk tok then none
      else some (finishEntry (renderEntry (applyRewrites tok) subject) date rem)

/-- `Robot.entry_for`: `None` (skip) or the formatted entry line. -/
def entry_for (msg : Msg) : Option (List Char) :=
  match msg.body with
  | none => none
  | some raw => entryForBody (pyStrip raw) (msg.subject.map pyStrip) msg.date

/-! ### The document merger (`Robot.treat_page`, lines 110-129) -/

/-- The separated tail of `sep.join bits`: `sep` before each element. -/
def joinTail (sep : List Char) : List (List Char) → List Char
  | [] => []
  | x :: xs => sep ++ x ++ joinTail sep xs

/-- `sep.join bits`. -/
def joinSep (sep : List Char) : List (List Char) → List Char
  | [] => []
  | x :: xs => x ++ joinTail sep xs

/-- `text.split("\n")`. -/
def splitNl : List Char → List (List Char)
  | [] => [[]]
  | c :: rest =>
    if c = '\n' then [] :: splitNl rest
    else
      match splitNl rest with
      | l :: ls => (c :: l) :: ls
      | [] => [[c]]

/-- `"\n".join lines`. -/
def joinNl : List (List Char) → List Char := joinSep ['\n']

/-- The suffix after the first `}}` of the non-greedy `\{\{at\|.*?\}\}`
(where `.` does not cross a newline), or `none` when the template never
closes. -/
def afterAtClose : List Char → Option (List Char)
  | '\x7d' :: '\x7d' :: rest => some rest
  | '\n' :: _ => none
  | _ :: rest => afterAtClose rest
  | [] => none

/-- Strip an optional leading `at`-template and the whitespace after it, per
the optional group of `\*\s*(\{\{at\|.*?\}\}\s*)?`. -/
def stripAtTemplate (r : List Char) : List Char :=
  if atOpen.isPrefixOf r then
    match afterAtClose (r.drop 5) with
    | some rest => rest.dropWhile isPySpace
    | none => r
  else r

/-- The dedup key of a line: `re.match(r"\*\s*(\{\{at\|.*?\}\}\s*)?", line)`
matches exactly the lines starting with `*`; the key is the line with the
matched prefix removed.  `none` for non-entry lines. -/
def lineKey (l : List Char) : Option (List Char) :=
  match l with
  | '*' :: rest => some (stripAtTemplate (rest.dropWhile isPySpace))
  | _ => none

/-- The duplicate-suppression loop: drop an entry line when its key was
already seen, keep everything else. -/
def dedupGo (seen : List (List Char)) : List (List Char) → List (List Char)
  | [] => []
  | l :: ls =>
    match lineKey l with
    | none => l :: dedupGo seen ls
    | some k => if k ∈ seen then dedupGo seen ls else l :: dedupGo (k :: seen) ls

/-- The text built at lines 112-114: existing text right-stripped, each new
entry joined on as a `"* "`-prefixed line, plus a final newline. -/
def mergeText (existing : List Char) (entries : List (List Char)) : List Char :=
  joinSep "\n* ".data (rstrip existing :: entries) ++ ['\n']

/-- `Robot.treat_page`'s text transformation: append the new entries, run the
dedup pass over the lines of the right-stripped text, and re-join with a
final newline. -/
def merge (existing : List Char) (entries : List (List Char)) : List Char :=
  joinNl (dedupGo [] (splitNl (rstrip (mergeText existing entries)))) ++ ['\n']

/-- A line is an entry line when the marker pattern matches it. -/
def isEntryLine (l : List Char) : Bool := (lineKey l).isSome

/-- The entry lines of a document, in order. -/
def entryLines (t : List Char) : List (List Char) :=
  (splitNl t).filter isEntryLine

/-! ### The run orchestrator (`Robot.generator`, `Robot.treat_page`,
`_main`) -/

/-- The spec's eligibility condition: some To/Cc/Bcc header is present and
non-empty. -/
def hasVisibleRecipient (m : Msg) : Bool :=
  truthyOpt m.«to» || truthyOpt m.cc || truthyOpt m.bcc

/-- `IMAP4JobQueue.messages` yields every decodable message: the loop over
the to/cc/bcc headers (source lines 72-74) only `continue`s the header loop
itself, so it filters nothing. -/
def queueMessages (q : List Msg) : List Msg := q

/-- Observable actions of one run, in order: an entry appended to
`self.entries`, a `STORE +FLAGS \Deleted` for a UID, the `put_current`
document write, and the final `EXPUNGE`. -/
inductive Event where
  | append (entry : List Char)
  | store (uid : Nat)
  | put (text : List Char)
  | expunge
deriving DecidableEq

/-- One iteration of the loop in `Robot.generator`: a skipped message leaves
the state alone; otherwise the entry is appended and the message's UID is
flagged deleted. -/
def generatorStep (st : List (List Char) × List Event) (m : Msg) :
    List (List Char) × List Event :=
  match entry_for m with
  | none => st
  | some e => (st.1 ++ [e], st.2 ++ [Event.append e, Event.store m.uid])

/-- The accumulated entries and events of `Robot.generator`. -/
def generatorRun (msgs : List Msg) : List (List Char) × List Event :=
  (queueMessages msgs).foldl generatorStep ([], [])

/-- One full run: drain the queue, and when any entry was produced, write the
merged document (`put_current`, synchronous) and then expunge; a failed write
raises, so the run ends before the expunge. -/
def run (msgs : List Msg) (pageText : List Char) (writeOk : Bool) :
    List Event :=
  let st := generatorRun msgs
  if st.1.isEmpty then st.2
  else
    st.2 ++ Event.put (merge pageText st.1) ::
      (if writeOk then [Event.expunge] else [])

/-! ### Auxiliary definitions used in the statements and proofs -/

/-- The set of dedup keys seen after the dedup loop has processed `ls`
starting from `seen`. -/
def seenAfter (seen : List (List Char)) : List (List Char) → List (List Char)
  | [] => seen
  | l :: ls =>
    match lineKey l with
    | none => seenAfter seen ls
    | some k => if k ∈ seen then seenAfter seen ls else seenAfter (k :: seen) ls

/-- Does some line of `pre` have dedup key `k`? -/
def keyInLines (k : List Char) (pre : List (List Char)) : Bool :=
  pre.any (fun l => decide (lineKey l = some k))

/-- Specification-style deduplication: a line is kept iff it is a non-entry
line, or no line before it (in `pre` and the already-processed part) has the
same dedup key; order is preserved and nothing else is changed. -/
def dedupFirstOccAux (pre : List (List Char)) : List (List Char) → List (List Char)
  | [] => []
  | l :: ls =>
    match lineKey l with
    | none => l :: dedupFirstOccAux (pre ++ [l]) ls
    | some k =>
      if keyInLines k pre then dedupFirstOccAux (pre ++ [l]) ls
      else l :: dedupFirstOccAux (pre ++ [l]) ls

/-- Specification-style deduplication of a whole line list. -/
def dedupFirstOcc (ls : List (List Char)) : List (List Char) :=
  dedupFirstOccAux [] ls

/-- No newline occurs in the optional string. -/
def noNlOpt : Option (List Char) → Bool
  | none => true
  | some l => decide ('\n' ∉ l)

/-- A message with a visible recipient and a well-formed body. -/
def c1msg : Msg :=
  { «to» := some "someone@example.com".data
    body := some "http://example.com/a".data
    uid := 7 }

/-- A minimal message producing one entry. -/
def c2msg : Msg := { body := some "http://a".data, uid := 3 }

/-- A minimal message producing one entry, for the ordering witness. -/
def c3msg : Msg := { body := some "http://b".data, uid := 5 }

/-- A message whose body remainder contains a newline. -/
def c7msg : Msg := { body := some "http://a b\nc".data }

/-- A message for the newline-freedom witness. -/
def c7wmsg : Msg :=
  { body := some "https://en.wikipedia.org/wiki/Foo_Bar".data
    subject := some "T".data
    date := some "D".data }

/-- A message whose subject, but not its lead token, contains a bracket. -/
def c8msg : Msg := { body := some "http://x".data, subject := some "a [b]".data }

/-- A message for the bracket-rendering witness. -/
def c8wmsg : Msg := { body := some "http://x y".data, subject := some "S".data }

/-- A message with a whitespace-only subject and a non-http lead token. -/
def c9msg : Msg := { body := some "x:y z".data, subject := some " ".data }

/-- A message whose first body token is `<>` and whose subject is
non-empty. -/
def c10msg : Msg := { body := some "<>".data, subject := some "Hi".data }

/-- A message whose first body token is `<>`, with no subject. -/
def c10wmsg : Msg := { body := some "<> rest".data, date := some "D".data }

/-! ### Lemmas about the rewrite rules -/

theorem ciStartsWith_false_of_take (p : List Char) :
    ∀ (l rest : List Char), ciStartsWith (p.take l.length) l = false →
      ciStartsWith p (l ++ rest) = false := by
  induction p with
  | nil => intro l rest h; simp [ciStartsWith, List.take_nil] at h
  | cons q qs ih =>
    intro l rest h
    cases l with
    | nil => simp [ciStartsWith] at h
    | cons c cs =>
      rw [List.length_cons, List.take_succ_cons] at h
      rw [List.cons_append]
      show (lowerChar c == q && ciStartsWith qs (cs ++ rest)) = false
      have h' : (lowerChar c == q && ciStartsWith (qs.take cs.length) cs) = false := h
      cases hq : (lowerChar c == q) with
      | false => simp
      | true =>
        rw [hq, Bool.true_and] at h'
        rw [Bool.true_and]
        exact ih cs rest h'

theorem rw1_fixed (rest : List Char) :
    rw1 (wikipediaMark ++ rest) = wikipediaMark ++ rest := by
  unfold rw1
  rw [ciStartsWith_false_of_take wp1 wikipediaMark rest (by decide),
    ciStartsWith_false_of_take wp2 wikipediaMark rest (by decide),
    ciStartsWith_false_of_take wp3 wikipediaMark rest (by decide),
    ciStartsWith_false_of_take wp4 wikipediaMark rest (by decide)]
  simp

theorem rw1_shape (s : List Char) :
    rw1 s = s ∨ ∃ rest, rw1 s = wikipediaMark ++ rest := by
  unfold rw1
  split_ifs <;> first | exact Or.inl rfl | exact Or.inr ⟨_, rfl⟩

theorem rw1_idem (s : List Char) : rw1 (rw1 s) = rw1 s := by
  rcases rw1_shape s with h | ⟨rest, h⟩ <;> rw [h]
  · exact h
  · exact rw1_fixed rest

theorem rw2_fixed (rest : List Char) :
    rw2 (ytReplacement ++ rest) = ytReplacement ++ rest := by
  unfold rw2
  rw [ciStartsWith_false_of_take yb1 ytReplacement rest (by decide),
    ciStartsWith_false_of_take yb2 ytReplacement rest (by decide)]
  simp

theorem rw2_shape (s : List Char) :
    rw2 s = s ∨ ∃ rest, rw2 s = ytReplacement ++ rest := by
  unfold rw2
  split_ifs <;> first | exact Or.inl rfl | exact Or.inr ⟨_, rfl⟩

theorem rw2_idem (s : List Char) : rw2 (rw2 s) = rw2 s := by
  rcases rw2_shape s with h | ⟨rest, h⟩ <;> rw [h]
  · exact h
  · exact rw2_fixed rest

/-! ### Lemmas about blank subjects -/

theorem renderEntry_blank_subject (tok : List Char) :
    renderEntry tok (some []) = renderEntry tok none := by
  unfold renderEntry
  simp [truthyOpt]

theorem entryForBody_blank_subject (b : List Char) (d : Option (List Char)) :
    entryForBody b (some []) d = entryForBody b none d := by
  unfold entryForBody
  simp [truthyOpt, renderEntry_blank_subject]

/-! ### Claim C1 -/

/-- C1: the claim says a message with a present, non-empty To/Cc/Bcc header
is skipped by the pipeline (no entry, no deletion marking).  The code
violates this: the recipient-header loop in `IMAP4JobQueue.messages` (source
lines 72-74) only `continue`s and so filters nothing, and `entry_for` never
consults these headers, so this message with a visible recipient is yielded,
transformed into an entry, and its UID is flagged for deletion. -/
theorem c1_recipients_not_skipped :
    hasVisibleRecipient c1msg = true ∧
    c1msg ∈ queueMessages [c1msg] ∧
    entry_for c1msg = some "http://example.com/a".data ∧
    Event.store 7 ∈ run [c1msg] [] true := by decide

/-! ### Claim C2 -/

/-- C2 counterexample: in the run on one message the `STORE +FLAGS \Deleted`
call for UID 3 is issued strictly before the document write that includes
the message's entry, so the deletion marking is NOT issued only after the
write. -/
theorem c2_store_before_put :
    Event.put (merge [] ["http://a".data]) ∈ run [c2msg] [] true ∧
    (run [c2msg] [] true).indexOf (Event.store 3) <
      (run [c2msg] [] true).indexOf (Event.put (merge [] ["http://a".data])) := by
  decide

/-! ### Claim C4 -/

/-- C4 counterexample: the third rewrite rule (the `igshid` strip) is not
idempotent: the first application removes only the leftmost tracking
parameter, and a second application removes another one. -/
theorem c4_igshid_rule_not_idempotent :
    rw3 (rw3 "?igshid=a?igshid=b".data) ≠ rw3 "?igshid=a?igshid=b".data := by
  decide

/-- C4 (amended): the first two rewrite rules are idempotent, and during
transform the rules are applied in listed order, each exactly once; the
third (tracking-parameter) rule is applied exactly once as well but is not
idempotent. -/
theorem c4_rewrites_order_and_idempotence :
    (∀ s, rw1 (rw1 s) = rw1 s) ∧ (∀ s, rw2 (rw2 s) = rw2 s) ∧
    (∀ s, applyRewrites s = rw3 (rw2 (rw1 s))) :=
  ⟨rw1_idem, rw2_idem, fun _ => rfl⟩

/-! ### Claim C5 (counterexample) -/

/-- C5 counterexample: with an existing document whose kept entry line
`* x `(trailing blank) ends the merged document, a second merge right-strips
that blank away, so the entry lines of the double merge differ from those of
a single merge. -/
theorem c5_merge_not_idempotent :
    entryLines (merge (merge "* a\n* x \n* a".data ["a".data]) ["a".data]) ≠
      entryLines (merge "* a\n* x \n* a".data ["a".data]) := by
  decide

/-! ### Claim C7 (counterexample) -/

/-- C7 counterexample: a message whose body remainder contains a newline
yields an entry containing that newline unescaped. -/
theorem c7_entry_newline :
    entry_for c7msg = some "http://a b\nc".data ∧ '\n' ∈ "http://a b\nc".data := by
  decide

/-! ### Claim C8 (counterexample) -/

/-- C8 counterexample: the lead token `http://x` contains no bracket, yet the
brackets are omitted because the SUBJECT contains one: the code tests the
combined token-plus-subject text, not the token itself as the claim says. -/
theorem c8_subject_bracket_omits :
    entry_for c8msg = some "http://x a [b]".data ∧
    "http://x".data.contains '[' = false ∧
    "http://x".data.contains ']' = false ∧
    entry_for c8msg ≠ some ('[' :: ("http://x a [b]".data ++ [']'])) := by
  decide

/-- C8 (amended): for a message whose rewritten lead token does not begin
with the `wikipedia:` mark and whose subject is present and non-empty, the
entry is the single-bracketed link pairing the token and subject, and the
brackets are omitted exactly when the COMBINED token-and-subject text
contains a bracket character (not just the token itself). -/
theorem c8_bracket_rendering (msg : Msg) (b s : List Char)
    (hb : msg.body = some b)
    (hs : msg.subject.map pyStrip = some s) (hsne : s.isEmpty = false)
    (hscheme : schemeOk (stripAngles (splitMax1 (pyStrip b)).1) = true)
    (hwp : wikipediaMark.isPrefixOf
        (applyRewrites (stripAngles (splitMax1 (pyStrip b)).1)) = false) :
    entry_for msg =
      some (finishEntry
        (let e := applyRewrites (stripAngles (splitMax1 (pyStrip b)).1) ++ ' ' :: s
         if e.contains '[' || e.contains ']' then e else '[' :: (e ++ [']']))
        msg.date (splitMax1 (pyStrip b)).2) := by
  have hne : (pyStrip b).isEmpty = false := by
    cases hpb : pyStrip b with
    | nil => rw [hpb] at hscheme; exact absurd hscheme (by decide)
    | cons c cs => rfl
  have htokne : (splitMax1 (pyStrip b)).1.isEmpty = false := by
    cases htk : (splitMax1 (pyStrip b)).1 with
    | nil => rw [htk] at hscheme; exact absurd hscheme (by decide)
    | cons c cs => rfl
  have hrender : renderEntry
      (applyRewrites (stripAngles (splitMax1 (pyStrip b)).1)) (some s) =
      (let e := applyRewrites (stripAngles (splitMax1 (pyStrip b)).1) ++ ' ' :: s
       if e.contains '[' || e.contains ']' then e else '[' :: (e ++ [']'])) := by
    unfold renderEntry
    rw [hwp]
    simp [truthyOpt, hsne]
  have h1 : entry_for msg = entryForBody (pyStrip b) (msg.subject.map pyStrip)
      msg.date := by
    unfold entry_for; rw [hb]
  rw [h1]
  unfold entryForBody
  simp only [hne, htokne, hs, hrender, truthyOpt, hsne, hscheme,
    Bool.not_true, Bool.and_false, Bool.false_eq_true, if_false]

/-- C8 witness: body `http://x y` with subject `S` renders as the bracketed
pair `[http://x S]` followed by the remainder. -/
theorem c8_bracket_rendering_witness :
    entry_for c8wmsg = some "[http://x S] y".data := by
  rw [c8_bracket_rendering c8wmsg "http://x y".data "S".data rfl (by decide)
    (by decide) (by decide) (by decide)]
  decide

/-! ### Claim C9 -/

/-- C9: a message whose Subject header is whitespace-only is treated exactly
as if the Subject header were absent: `entry_for` returns the same result,
so the http/https scheme requirement is not enforced and no subject
annotation is appended. -/
theorem c9_blank_subject_as_absent (msg : Msg) (ws : List Char)
    (h1 : msg.subject = some ws) (h2 : pyStrip ws = []) :
    entry_for msg = entry_for { msg with subject := none } := by
  have hsub : msg.subject.map pyStrip = some [] := by rw [h1]; simp [h2]
  have hbody : ({ msg with subject := none } : Msg).body = msg.body := rfl
  have hdate : ({ msg with subject := none } : Msg).date = msg.date := rfl
  have hsub' : ({ msg with subject := none } : Msg).subject.map pyStrip =
      (none : Option (List Char)) := rfl
  unfold entry_for
  rw [hbody, hdate, hsub, hsub']
  cases msg.body with
  | none => rfl
  | some raw => exact entryForBody_blank_subject (pyStrip raw) msg.date

/-- C9 witness: a concrete message with a whitespace-only subject and a
non-http lead token is processed identically with and without the subject. -/
theorem c9_blank_subject_as_absent_witness :
    entry_for c9msg = entry_for { c9msg with subject := none } :=
  c9_blank_subject_as_absent c9msg " ".data rfl (by decide)

/-! ### Claim C10 -/

/-- C10 counterexample: the claim quantifies over every message whose first
body token is exactly `<>`, but when such a message also carries a non-empty
subject, the scheme check on the (empty) stripped token fails and the
message IS skipped. -/
theorem c10_subject_blocks_empty_token :
    (splitMax1 (pyStrip "<>".data)).1 = "<>".data ∧ entry_for c10msg = none := by
  decide

/-- C10 (amended): for a message whose first body token is exactly `<>` and
whose subject is absent or whitespace-only, transform does not skip: the
emptiness check runs before angle-bracket stripping, so an entry is produced
from the empty token (date marker and body remainder still attached). -/
theorem c10_angle_empty_token_entry (msg : Msg) (b : List Char)
    (hb : msg.body = some b)
    (htok : (splitMax1 (pyStrip b)).1 = "<>".data)
    (hsub : truthyOpt (msg.subject.map pyStrip) = false) :
    entry_for msg = some (finishEntry [] msg.date (splitMax1 (pyStrip b)).2) := by
  have hne : (pyStrip b).isEmpty = false := by
    cases hpb : pyStrip b with
    | nil => rw [hpb] at htok; simp [splitMax1] at htok
    | cons c cs => rfl
  have h2 : stripAngles "<>".data = [] := by decide
  have h3 : applyRewrites ([] : List Char) = [] := by decide
  have h4 : renderEntry [] (msg.subject.map pyStrip) = [] := by
    unfold renderEntry
    rw [hsub]
    simp [show wikipediaMark.isPrefixOf ([] : List Char) = false from by decide]
  have h1 : entry_for msg = entryForBody (pyStrip b) (msg.subject.map pyStrip)
      msg.date := by
    unfold entry_for; rw [hb]
  have h5 : ("<>".data).isEmpty = false := by decide
  rw [h1]
  unfold entryForBody
  rw [hne, htok]
  simp only [h2, h3, h4, h5, hsub, Bool.false_and, Bool.false_eq_true,
    if_false]

/-- C10 witness: the concrete message with body `<> rest` and a date header
produces the entry assembled from the empty token. -/
theorem c10_angle_empty_token_entry_witness :
    entry_for c10wmsg = some (finishEntry [] (some "D".data) (some "rest".data)) := by
  rw [c10_angle_empty_token_entry c10wmsg "<> rest".data rfl (by decide) (by decide)]
  decide

/-! ### Lemmas about the run trace -/

theorem run_eq (msgs : List Msg) (p : List Char) (w : Bool) :
    run msgs p w =
      if (generatorRun msgs).1.isEmpty then (generatorRun msgs).2
      else (generatorRun msgs).2 ++ Event.put (merge p (generatorRun msgs).1) ::
        (if w then [Event.expunge] else []) := rfl

theorem gen_foldl_split (msgs : List Msg) :
    ∀ (es : List (List Char)) (tr : List Event),
      msgs.foldl generatorStep (es, tr) =
        (es ++ (msgs.foldl generatorStep ([], [])).1,
         tr ++ (msgs.foldl generatorStep ([], [])).2) := by
  induction msgs with
  | nil => intro es tr; simp
  | cons m ms ih =>
    intro es tr
    simp only [List.foldl_cons]
    cases hm : entry_for m with
    | none =>
      have h1 : generatorStep (es, tr) m = (es, tr) := by
        unfold generatorStep; rw [hm]
      have h2 : generatorStep ([], []) m = ([], []) := by
        unfold generatorStep; rw [hm]
      rw [h1, h2]
      exact ih es tr
    | some e =>
      have h1 : generatorStep (es, tr) m =
          (es ++ [e], tr ++ [Event.append e, Event.store m.uid]) := by
        unfold generatorStep; rw [hm]
      have h2 : generatorStep ([], []) m =
          ([e], [Event.append e, Event.store m.uid]) := by
        unfold generatorStep; rw [hm]; rfl
      rw [h1, h2, ih (es ++ [e]) (tr ++ [Event.append e, Event.store m.uid]),
        ih [e] [Event.append e, Event.store m.uid]]
      simp

theorem generatorRun_cons_none (m : Msg) (ms : List Msg)
    (hm : entry_for m = none) : generatorRun (m :: ms) = generatorRun ms := by
  unfold generatorRun queueMessages
  simp only [List.foldl_cons]
  have h : generatorStep ([], []) m = ([], []) := by
    unfold generatorStep; rw [hm]
  rw [h]

theorem generatorRun_cons_some (m : Msg) (ms : List Msg) (e : List Char)
    (hm : entry_for m = some e) :
    generatorRun (m :: ms) =
      (e :: (generatorRun ms).1,
       Event.append e :: Event.store m.uid :: (generatorRun ms).2) := by
  unfold generatorRun queueMessages
  simp only [List.foldl_cons]
  have h : generatorStep ([], []) m =
      ([e], [Event.append e, Event.store m.uid]) := by
    unfold generatorStep; rw [hm]; rfl
  rw [h, gen_foldl_split ms [e] [Event.append e, Event.store m.uid]]
  simp

theorem gen_events_kinds (msgs : List Msg) :
    ∀ ev ∈ (generatorRun msgs).2,
      (∃ e, ev = Event.append e) ∨ ∃ u, ev = Event.store u := by
  induction msgs with
  | nil => intro ev hev; simp [generatorRun, queueMessages] at hev
  | cons m ms ih =>
    intro ev hev
    cases hm : entry_for m with
    | none =>
      rw [generatorRun_cons_none m ms hm] at hev
      exact ih ev hev
    | some e =>
      rw [generatorRun_cons_some m ms e hm] at hev
      simp only [List.mem_cons] at hev
      rcases hev with h | h | h
      · exact Or.inl ⟨e, h⟩
      · exact Or.inr ⟨m.uid, h⟩
      · exact ih ev h

theorem expunge_not_in_gen (msgs : List Msg) :
    Event.expunge ∉ (generatorRun msgs).2 := by
  intro h
  rcases gen_events_kinds msgs Event.expunge h with ⟨e, he⟩ | ⟨u, hu⟩
  · exact Event.noConfusion he
  · exact Event.noConfusion hu

theorem put_not_in_gen (msgs : List Msg) (t : List Char) :
    Event.put t ∉ (generatorRun msgs).2 := by
  intro h
  rcases gen_events_kinds msgs (Event.put t) h with ⟨e, he⟩ | ⟨u, hu⟩
  · exact Event.noConfusion he
  · exact Event.noConfusion hu

theorem gen_store_after_append (msgs : List Msg) (m : Msg) (e : List Char)
    (hm : m ∈ msgs) (he : entry_for m = some e) :
    ∃ l1 l2, (generatorRun msgs).2 =
      l1 ++ Event.append e :: Event.store m.uid :: l2 := by
  induction msgs with
  | nil => exact absurd hm (List.not_mem_nil m)
  | cons a ms ih =>
    rcases List.mem_cons.mp hm with rfl | hm'
    · rw [generatorRun_cons_some m ms e he]
      exact ⟨[], (generatorRun ms).2, rfl⟩
    · cases ha : entry_for a with
      | none =>
        rw [generatorRun_cons_none a ms ha]
        exact ih hm'
      | some e' =>
        rw [generatorRun_cons_some a ms e' ha]
        obtain ⟨l1, l2, hl⟩ := ih hm'
        exact ⟨Event.append e' :: Event.store a.uid :: l1, l2, by rw [hl]; rfl⟩

theorem gen_entry_mem (msgs : List Msg) (m : Msg) (e : List Char)
    (hm : m ∈ msgs) (he : entry_for m = some e) :
    e ∈ (generatorRun msgs).1 := by
  induction msgs with
  | nil => exact absurd hm (List.not_mem_nil m)
  | cons a ms ih =>
    rcases List.mem_cons.mp hm with rfl | hm'
    · rw [generatorRun_cons_some m ms e he]
      exact List.mem_cons_self _ _
    · cases ha : entry_for a with
      | none =>
        rw [generatorRun_cons_none a ms ha]
        exact ih hm'
      | some e' =>
        rw [generatorRun_cons_some a ms e' ha]
        exact List.mem_cons_of_mem _ (ih hm')

/-! ### Claims C2 (amended) and C3 -/

/-- C2 (amended): for every queue item that yields a non-skip Entry, the
deletion-marking call is issued only after that item's Entry has been
appended to the batch that the document write will include, and before the
document write itself: the run trace is the generator events — in which the
append of the item's Entry immediately precedes its STORE, and which contain
no write — followed by the single write of the merge of exactly that batch. -/
theorem c2_store_after_batch_append (msgs : List Msg) (p : List Char)
    (w : Bool) (m : Msg) (e : List Char) (hm : m ∈ msgs)
    (he : entry_for m = some e) :
    e ∈ (generatorRun msgs).1 ∧
    (∃ l1 l2, (generatorRun msgs).2 =
      l1 ++ Event.append e :: Event.store m.uid :: l2) ∧
    run msgs p w = (generatorRun msgs).2 ++
      Event.put (merge p (generatorRun msgs).1) ::
        (if w then [Event.expunge] else []) ∧
    (∀ t, Event.put t ∉ (generatorRun msgs).2) := by
  have hmem := gen_entry_mem msgs m e hm he
  have hne : (generatorRun msgs).1.isEmpty = false := by
    cases hg : (generatorRun msgs).1 with
    | nil => rw [hg] at hmem; exact absurd hmem (List.not_mem_nil e)
    | cons x xs => rfl
  refine ⟨hmem, gen_store_after_append msgs m e hm he, ?_, put_not_in_gen msgs⟩
  rw [run_eq, hne]
  simp

/-- C2 witness: the amended trace shape at a concrete one-message run: the
append immediately precedes the STORE among the generator events, and the
write of the merged batch follows them. -/
theorem c2_store_after_batch_append_witness :
    "http://a".data ∈ (generatorRun [c2msg]).1 ∧
    (∃ l1 l2, (generatorRun [c2msg]).2 =
      l1 ++ Event.append "http://a".data :: Event.store 3 :: l2) ∧
    run [c2msg] [] true = (generatorRun [c2msg]).2 ++
      Event.put (merge [] (generatorRun [c2msg]).1) :: [Event.expunge] := by
  have h := c2_store_after_batch_append [c2msg] [] true c2msg
    "http://a".data (by decide) (by decide)
  exact ⟨h.1, h.2.1, h.2.2.1⟩

/-- C3: in every run the queue compaction (expunge) happens only as the very
last event, immediately after a successful document write, and if the write
fails the run ends with no compaction call. -/
theorem c3_expunge_only_after_put (msgs : List Msg) (p : List Char) (w : Bool) :
    (Event.expunge ∈ run msgs p w →
      w = true ∧ ∃ l, run msgs p w =
        l ++ [Event.put (merge p (generatorRun msgs).1), Event.expunge]) ∧
    (w = false → Event.expunge ∉ run msgs p w) := by
  rw [run_eq]
  cases hes : (generatorRun msgs).1.isEmpty with
  | true =>
    simp only [if_true]
    exact ⟨fun h => absurd h (expunge_not_in_gen msgs),
      fun _ => expunge_not_in_gen msgs⟩
  | false =>
    simp only [Bool.false_eq_true, if_false]
    cases w with
    | true =>
      constructor
      · intro _
        refine ⟨rfl, (generatorRun msgs).2, ?_⟩
        simp
      · intro h; exact absurd h (by simp)
    | false =>
      constructor
      · intro h
        rw [List.mem_append] at h
        rcases h with h | h
        · exact absurd h (expunge_not_in_gen msgs)
        · simp at h
      · intro _ h
        rw [List.mem_append] at h
        rcases h with h | h
        · exact absurd h (expunge_not_in_gen msgs)
        · simp at h

/-- C3 witness: the concrete one-message run with a successful write ends
with the document write followed by the expunge. -/
theorem c3_expunge_only_after_put_witness :
    ∃ l, run [c3msg] [] true =
      l ++ [Event.put (merge [] (generatorRun [c3msg]).1), Event.expunge] :=
  ((c3_expunge_only_after_put [c3msg] [] true).1 (by decide)).2

/-! ### Newline-tracking lemmas for claim C7 -/

theorem noNlOpt_spec {o : Option (List Char)} (h : noNlOpt o = true) :
    ∀ l, o = some l → '\n' ∉ l := by
  intro l hl
  rw [hl] at h
  unfold noNlOpt at h
  exact of_decide_eq_true h

theorem noNl_splitMax1_tok (b : List Char) : '\n' ∉ (splitMax1 b).1 := by
  intro h
  simp only [splitMax1] at h
  have := List.mem_takeWhile_imp h
  simp [isPySpace] at this

theorem noNl_stripAngles {l : List Char} (h : '\n' ∉ l) :
    '\n' ∉ stripAngles l := by
  unfold stripAngles
  split_ifs with hc
  · intro hm
    exact h (List.drop_subset 1 l (List.dropLast_subset _ hm))
  · exact h

theorem noNl_rw1 {s : List Char} (h : '\n' ∉ s) : '\n' ∉ rw1 s := by
  unfold rw1
  split_ifs <;> intro hm <;> try exact h hm
  all_goals
    rcases List.mem_append.mp hm with h1 | h1
    · exact absurd h1 (by decide)
    · exact h (List.drop_subset _ _ h1)

theorem noNl_rw2 {s : List Char} (h : '\n' ∉ s) : '\n' ∉ rw2 s := by
  unfold rw2
  split_ifs <;> intro hm <;> try exact h hm
  all_goals
    rcases List.mem_append.mp hm with h1 | h1
    · exact absurd h1 (by decide)
    · exact h (List.drop_subset _ _ h1)

theorem rw3_cons_match (c : Char) (cs : List Char) :
    rw3 (c :: cs) = match igshidMatchLen? (c :: cs) with
      | some n => (c :: cs).drop n
      | none => c :: rw3 cs := rfl

theorem noNl_rw3 {s : List Char} (h : '\n' ∉ s) : '\n' ∉ rw3 s := by
  induction s with
  | nil => simp [rw3]
  | cons c cs ih =>
    rw [rw3_cons_match]
    cases hg : igshidMatchLen? (c :: cs) with
    | some n =>
      intro hm
      exact h (List.drop_subset _ _ hm)
    | none =>
      intro hm
      rcases List.mem_cons.mp hm with h' | h'
      · exact h (h' ▸ List.mem_cons_self _ _)
      · have hcs : '\n' ∉ cs := fun hx => h (List.mem_cons_of_mem _ hx)
        exact ih hcs h'

theorem noNl_applyRewrites {s : List Char} (h : '\n' ∉ s) :
    '\n' ∉ applyRewrites s :=
  noNl_rw3 (noNl_rw2 (noNl_rw1 h))

theorem noNl_underscoreToSpace {l : List Char} (h : '\n' ∉ unquote l) :
    '\n' ∉ underscoreToSpace (unquote l) := by
  intro hm
  unfold underscoreToSpace at hm
  rcases List.mem_map.mp hm with ⟨a, ha, hfa⟩
  by_cases h' : a = '_'
  · rw [if_pos h'] at hfa
    exact absurd hfa (by decide)
  · rw [if_neg h'] at hfa
    exact h (hfa ▸ ha)

theorem noNl_wikiCore {tok : List Char} (h2 : '\n' ∉ unquote tok) :
    '\n' ∉ '[' :: '[' :: (underscoreToSpace (unquote tok) ++ [']', ']']) := by
  intro hm
  rcases List.mem_cons.mp hm with h' | h'
  · exact absurd h' (by decide)
  · rcases List.mem_cons.mp h' with h'' | h''
    · exact absurd h'' (by decide)
    · rcases List.mem_append.mp h'' with h3' | h3'
      · exact noNl_underscoreToSpace h2 h3'
      · exact absurd h3' (by decide)

theorem noNl_pair {tok s : List Char} (h1 : '\n' ∉ tok) (hs : '\n' ∉ s) :
    '\n' ∉ tok ++ ' ' :: s := by
  intro hm
  rcases List.mem_append.mp hm with h' | h'
  · exact h1 h'
  · rcases List.mem_cons.mp h' with h'' | h''
    · exact absurd h'' (by decide)
    · exact hs h''

theorem noNl_renderEntry {tok : List Char} {subject : Option (List Char)}
    (h1 : '\n' ∉ tok) (h2 : '\n' ∉ unquote tok)
    (h3 : ∀ s, subject = some s → '\n' ∉ s) :
    '\n' ∉ renderEntry tok subject := by
  intro hm
  unfold renderEntry at hm
  by_cases hw : wikipediaMark.isPrefixOf tok = true
  · rw [if_pos hw] at hm
    cases hsub : subject with
    | none =>
      rw [hsub] at hm
      simp only [truthyOpt, Bool.false_eq_true, if_false] at hm
      exact noNl_wikiCore h2 hm
    | some s =>
      rw [hsub] at hm
      have hs := h3 s hsub
      by_cases hse : s.isEmpty = true
      · simp only [truthyOpt, hse, Bool.not_true, Bool.false_eq_true,
          if_false] at hm
        exact noNl_wikiCore h2 hm
      · simp only [truthyOpt, hse, Bool.not_false, if_true,
          Option.getD_some] at hm
        rcases List.mem_append.mp hm with h' | h'
        · rcases List.mem_append.mp h' with h'' | h''
          · rcases List.mem_append.mp h'' with h3' | h3'
            · exact noNl_wikiCore h2 h3'
            · exact absurd h3' (by decide)
          · exact hs h''
        · exact absurd h' (by decide)
  · rw [if_neg hw] at hm
    cases hsub : subject with
    | none =>
      rw [hsub] at hm
      simp only [truthyOpt, Bool.false_eq_true, if_false] at hm
      exact h1 hm
    | some s =>
      rw [hsub] at hm
      have hs := h3 s hsub
      by_cases hse : s.isEmpty = true
      · simp only [truthyOpt, hse, Bool.not_true, Bool.false_eq_true,
          if_false] at hm
        exact h1 hm
      · simp only [truthyOpt, hse, Bool.not_false, if_true,
          Option.getD_some] at hm
        by_cases hbr : ((tok ++ ' ' :: s).contains '[' ||
            (tok ++ ' ' :: s).contains ']') = true
        · rw [if_pos hbr] at hm
          exact noNl_pair h1 hs hm
        · rw [if_neg hbr] at hm
          rcases List.mem_cons.mp hm with h' | h'
          · exact absurd h' (by decide)
          · rcases List.mem_append.mp h' with h'' | h''
            · exact noNl_pair h1 hs h''
            · exact absurd h'' (by decide)

theorem noNl_finishEntry {entry : List Char} {date rem : Option (List Char)}
    (h1 : '\n' ∉ entry) (h2 : ∀ d, date = some d → '\n' ∉ d)
    (h3 : ∀ r, rem = some r → '\n' ∉ r) :
    '\n' ∉ finishEntry entry date rem := by
  intro hm
  unfold finishEntry at hm
  cases date with
  | none =>
    cases rem with
    | none => exact h1 hm
    | some r =>
      rcases List.mem_append.mp hm with h' | h'
      · exact h1 h'
      · rcases List.mem_cons.mp h' with h'' | h''
        · exact absurd h'' (by decide)
        · exact h3 r rfl h''
  | some d =>
    have hd := h2 d rfl
    have hdateEntry : '\n' ∉ atOpen ++ d ++ ("\x7d\x7d ".data ++ entry) := by
      intro h'
      rcases List.mem_append.mp h' with h'' | h''
      · rcases List.mem_append.mp h'' with h3' | h3'
        · exact absurd h3' (by decide)
        · exact hd h3'
      · rcases List.mem_append.mp h'' with h4 | h4
        · exact absurd h4 (by decide)
        · exact h1 h4
    cases rem with
    | none => exact hdateEntry hm
    | some r =>
      rcases List.mem_append.mp hm with h' | h'
      · exact hdateEntry h'
      · rcases List.mem_cons.mp h' with h'' | h''
        · exact absurd h'' (by decide)
        · exact h3 r rfl h''

/-! ### Claim C7 (amended) -/

/-- C7 (amended): the Entry returned by transform is newline-free provided
the message's date, stripped subject and body remainder are newline-free and
percent-decoding the rewritten lead token introduces no newline; the lead
token itself can never carry a newline since it ends at the first
whitespace. -/
theorem c7_no_newline_of_clean_inputs (msg : Msg) (e : List Char)
    (he : entry_for msg = some e)
    (hd : noNlOpt msg.date = true)
    (hs : noNlOpt (msg.subject.map pyStrip) = true)
    (hr : noNlOpt (splitMax1 (pyStrip (msg.body.getD []))).2 = true)
    (ht : '\n' ∉ unquote (applyRewrites (stripAngles
      (splitMax1 (pyStrip (msg.body.getD []))).1))) :
    '\n' ∉ e := by
  cases hb : msg.body with
  | none =>
    rw [show entry_for msg = none from by unfold entry_for; rw [hb]] at he
    exact Option.noConfusion he
  | some raw =>
    have hgd : msg.body.getD [] = raw := by rw [hb]; rfl
    rw [hgd] at hr ht
    have h1 : entry_for msg =
        entryForBody (pyStrip raw) (msg.subject.map pyStrip) msg.date := by
      unfold entry_for; rw [hb]
    rw [h1] at he
    unfold entryForBody at he
    by_cases hb1 : (pyStrip raw).isEmpty = true
    · rw [if_pos hb1] at he; exact Option.noConfusion he
    · rw [if_neg hb1] at he
      simp only at he
      by_cases hb2 : (splitMax1 (pyStrip raw)).1.isEmpty = true
      · rw [if_pos hb2] at he; exact Option.noConfusion he
      · rw [if_neg hb2] at he
        by_cases hb3 : (truthyOpt (msg.subject.map pyStrip) &&
            !schemeOk (stripAngles (splitMax1 (pyStrip raw)).1)) = true
        · rw [if_pos hb3] at he; exact Option.noConfusion he
        · rw [if_neg hb3] at he
          have he' := Option.some.inj he
          rw [← he']
          exact noNl_finishEntry
            (noNl_renderEntry
              (noNl_applyRewrites (noNl_stripAngles (noNl_splitMax1_tok _)))
              ht (noNlOpt_spec hs))
            (noNlOpt_spec hd) (noNlOpt_spec hr)

/-- C7 witness: a concrete wikipedia-link message with clean subject, date
and body yields a newline-free entry. -/
theorem c7_no_newline_of_clean_inputs_witness :
    '\n' ∉ "\x7b\x7bat|D\x7d\x7d [[wikipedia:Foo Bar]] \x27\x27<q>T</q>\x27\x27".data :=
  c7_no_newline_of_clean_inputs c7wmsg _ (by decide) (by decide) (by decide)
    (by decide) (by decide)

/-! ### Dedup lemmas for claim C6 -/

theorem dedupGo_cons (seen : List (List Char)) (l : List Char)
    (ls : List (List Char)) :
    dedupGo seen (l :: ls) = match lineKey l with
      | none => l :: dedupGo seen ls
      | some k =>
        if k ∈ seen then dedupGo seen ls else l :: dedupGo (k :: seen) ls := rfl

theorem dedupFirstOccAux_cons (pre : List (List Char)) (l : List Char)
    (ls : List (List Char)) :
    dedupFirstOccAux pre (l :: ls) = match lineKey l with
      | none => l :: dedupFirstOccAux (pre ++ [l]) ls
      | some k =>
        if keyInLines k pre then dedupFirstOccAux (pre ++ [l]) ls
        else l :: dedupFirstOccAux (pre ++ [l]) ls := rfl

theorem keyInLines_append (k : List Char) (pre : List (List Char))
    (l : List Char) :
    keyInLines k (pre ++ [l]) =
      (keyInLines k pre || decide (lineKey l = some k)) := by
  unfold keyInLines
  rw [List.any_append]
  simp

theorem dedup_eq_aux (ls : List (List Char)) :
    ∀ (seen pre : List (List Char)),
      (∀ k, k ∈ seen ↔ keyInLines k pre = true) →
      dedupGo seen ls = dedupFirstOccAux pre ls := by
  induction ls with
  | nil => intro seen pre _; rfl
  | cons l ls ih =>
    intro seen pre hinv
    rw [dedupGo_cons, dedupFirstOccAux_cons]
    cases hk : lineKey l with
    | none =>
      show l :: dedupGo seen ls = l :: dedupFirstOccAux (pre ++ [l]) ls
      have hinv' : ∀ k, k ∈ seen ↔ keyInLines k (pre ++ [l]) = true := by
        intro k
        rw [keyInLines_append, hk]
        simp [hinv k]
      exact congrArg _ (ih seen (pre ++ [l]) hinv')
    | some k =>
      show (if k ∈ seen then dedupGo seen ls else l :: dedupGo (k :: seen) ls) =
        (if keyInLines k pre then dedupFirstOccAux (pre ++ [l]) ls
         else l :: dedupFirstOccAux (pre ++ [l]) ls)
      by_cases hks : k ∈ seen
      · rw [if_pos hks, if_pos ((hinv k).mp hks)]
        have hinv' : ∀ k', k' ∈ seen ↔ keyInLines k' (pre ++ [l]) = true := by
          intro k'
          rw [keyInLines_append, hk]
          by_cases hkk : k = k'
          · subst hkk
            simp only [decide_eq_true_eq]
            constructor
            · intro _; simp
            · intro _; exact hks
          · have hd : decide (some k = some k') = false := by
              simp [hkk]
            rw [hd, Bool.or_false]
            exact hinv k'
        exact ih seen (pre ++ [l]) hinv'
      · have hkp : keyInLines k pre = false := by
          cases hb : keyInLines k pre with
          | false => rfl
          | true => exact absurd ((hinv k).mpr hb) hks
        rw [if_neg hks, if_neg (by rw [hkp]; exact Bool.false_ne_true)]
        have hinv' : ∀ k', k' ∈ k :: seen ↔ keyInLines k' (pre ++ [l]) = true := by
          intro k'
          rw [keyInLines_append, hk, List.mem_cons]
          by_cases hkk : k = k'
          · subst hkk
            simp
          · have hd : decide (some k = some k') = false := by
              simp [hkk]
            rw [hd, Bool.or_false]
            constructor
            · intro h'
              rcases h' with h' | h'
              · exact absurd h'.symm hkk
              · exact (hinv k').mp h'
            · intro h'
              exact Or.inr ((hinv k').mpr h')
        exact congrArg _ (ih (k :: seen) (pre ++ [l]) hinv')

theorem dedupGo_eq_dedupFirstOcc (ls : List (List Char)) :
    dedupGo [] ls = dedupFirstOcc ls :=
  dedup_eq_aux ls [] [] (by intro k; simp [keyInLines])

/-! ### Claim C6 -/

/-- C6: the merged document is exactly the one obtained by keeping, among
the lines of the appended text, every non-entry line unchanged and only the
FIRST entry line for each dedup key (the line's content with the `*` marker
and any leading timestamp-marker template stripped), in original order. -/
theorem c6_dedup_first_occurrence (d : List Char) (es : List (List Char)) :
    merge d es =
      joinNl (dedupFirstOcc (splitNl (rstrip (mergeText d es)))) ++ ['\n'] := by
  unfold merge
  rw [dedupGo_eq_dedupFirstOcc]

/-! ### Line-splitting and right-strip lemmas for claim C5 -/

theorem splitNl_ne_nil (t : List Char) : splitNl t ≠ [] := by
  cases t with
  | nil => simp [splitNl]
  | cons c r =>
    by_cases hc : c = '\n'
    · simp [splitNl, hc]
    · cases hs : splitNl r with
      | nil => simp [splitNl, hc, hs]
      | cons a as => simp [splitNl, hc, hs]

theorem splitNl_append_nl (a : List Char) :
    ∀ b, splitNl (a ++ '\n' :: b) = splitNl a ++ splitNl b := by
  induction a with
  | nil => intro b; simp [splitNl]
  | cons c cs ih =>
    intro b
    by_cases hc : c = '\n'
    · subst hc
      show splitNl ('\n' :: (cs ++ '\n' :: b)) = splitNl ('\n' :: cs) ++ splitNl b
      simp [splitNl, ih]
    · show splitNl (c :: (cs ++ '\n' :: b)) = splitNl (c :: cs) ++ splitNl b
      cases hs : splitNl cs with
      | nil => exact absurd hs (splitNl_ne_nil cs)
      | cons l ls =>
        have h1 : splitNl (cs ++ '\n' :: b) = l :: (ls ++ splitNl b) := by
          rw [ih, hs]; rfl
        simp [splitNl, hc, hs, h1]

theorem splitNl_no_nl {l : List Char} (h : '\n' ∉ l) : splitNl l = [l] := by
  induction l with
  | nil => rfl
  | cons c cs ih =>
    have hc : ¬c = '\n' := fun hcc => h (by rw [hcc]; exact List.mem_cons_self _ _)
    have hcs : '\n' ∉ cs := fun hx => h (List.mem_cons_of_mem _ hx)
    simp [splitNl, hc, ih hcs]

theorem noNl_of_mem_splitNl {t l : List Char} (h : l ∈ splitNl t) : '\n' ∉ l := by
  induction t generalizing l with
  | nil =>
    simp [splitNl] at h
    subst h
    simp
  | cons c cs ih =>
    by_cases hc : c = '\n'
    · subst hc
      rw [show splitNl ('\n' :: cs) = [] :: splitNl cs from by simp [splitNl]] at h
      rcases List.mem_cons.mp h with rfl | h'
      · simp
      · exact ih h'
    · cases hs : splitNl cs with
      | nil => exact absurd hs (splitNl_ne_nil cs)
      | cons a as =>
        rw [show splitNl (c :: cs) = (c :: a) :: as from by
          simp [splitNl, hc, hs]] at h
        rcases List.mem_cons.mp h with rfl | h'
        · intro hm
          rcases List.mem_cons.mp hm with h'' | h''
          · exact hc h''.symm
          · have ha : '\n' ∉ a := ih (by rw [hs]; exact List.mem_cons_self a as)
            exact ha h''
        · exact ih (by rw [hs]; exact List.mem_cons_of_mem a h')

theorem splitNl_joinNl (ls : List (List Char)) (h : ∀ l ∈ ls, '\n' ∉ l)
    (hne : ls ≠ []) : splitNl (joinNl ls) = ls := by
  induction ls with
  | nil => exact absurd rfl hne
  | cons l ls ih =>
    cases ls with
    | nil =>
      have hj : joinNl [l] = l := by
        show l ++ joinTail ['\n'] [] = l
        rw [show joinTail ['\n'] ([] : List (List Char)) = [] from rfl,
          List.append_nil]
      rw [hj]
      exact splitNl_no_nl (h l (List.mem_cons_self _ _))
    | cons m ms =>
      have hjoin : joinNl (l :: m :: ms) = l ++ '\n' :: joinNl (m :: ms) := rfl
      rw [hjoin, splitNl_append_nl, splitNl_no_nl (h l (List.mem_cons_self _ _)),
        ih (fun x hx => h x (List.mem_cons_of_mem _ hx)) (by simp)]
      rfl

theorem rstrip_append_right (a b : List Char) (c : Char) (hc : c ∈ b)
    (hcp : isPySpace c = false) : rstrip (a ++ b) = a ++ rstrip b := by
  unfold rstrip
  rw [List.reverse_append, List.dropWhile_append]
  have hne : (b.reverse.dropWhile isPySpace).isEmpty = false := by
    cases hd : b.reverse.dropWhile isPySpace with
    | nil =>
      have hall := List.dropWhile_eq_nil_iff.mp hd c (List.mem_reverse.mpr hc)
      rw [hcp] at hall
      exact Bool.noConfusion hall
    | cons x xs => rfl
  rw [hne]
  simp [List.reverse_append]

theorem rstrip_append_ws (a b : List Char) (h : ∀ c ∈ b, isPySpace c = true) :
    rstrip (a ++ b) = rstrip a := by
  unfold rstrip
  rw [List.reverse_append, List.dropWhile_append]
  have hnil : b.reverse.dropWhile isPySpace = [] :=
    List.dropWhile_eq_nil_iff.mpr (fun x hx => h x (List.mem_reverse.mp hx))
  rw [hnil]
  simp

/-! ### Dedup-state lemmas for claim C5 -/

theorem seenAfter_cons (s : List (List Char)) (l : List Char)
    (ls : List (List Char)) :
    seenAfter s (l :: ls) = match lineKey l with
      | none => seenAfter s ls
      | some k => if k ∈ s then seenAfter s ls else seenAfter (k :: s) ls := rfl

theorem dedupGo_append (xs : List (List Char)) :
    ∀ (s ys : List (List Char)),
      dedupGo s (xs ++ ys) = dedupGo s xs ++ dedupGo (seenAfter s xs) ys := by
  induction xs with
  | nil => intro s ys; rfl
  | cons l ls ih =>
    intro s ys
    rw [List.cons_append, dedupGo_cons, dedupGo_cons, seenAfter_cons]
    cases hk : lineKey l with
    | none =>
      show l :: dedupGo s (ls ++ ys) = (l :: dedupGo s ls) ++ dedupGo (seenAfter s ls) ys
      rw [ih s ys]
      rfl
    | some k =>
      dsimp only
      by_cases hks : k ∈ s
      · rw [if_pos hks, if_pos hks, if_pos hks]
        exact ih s ys
      · rw [if_neg hks, if_neg hks, if_neg hks]
        rw [ih (k :: s) ys]
        rfl

theorem dedupGo_dedupGo (xs : List (List Char)) :
    ∀ s, dedupGo s (dedupGo s xs) = dedupGo s xs := by
  induction xs with
  | nil => intro s; rfl
  | cons l ls ih =>
    intro s
    rw [dedupGo_cons]
    cases hk : lineKey l with
    | none =>
      show dedupGo s (l :: dedupGo s ls) = l :: dedupGo s ls
      rw [dedupGo_cons, hk, ih s]
    | some k =>
      dsimp only
      by_cases hks : k ∈ s
      · rw [if_pos hks]
        exact ih s
      · rw [if_neg hks]
        show dedupGo s (l :: dedupGo (k :: s) ls) = l :: dedupGo (k :: s) ls
        rw [dedupGo_cons, hk]
        dsimp only
        rw [if_neg hks, ih (k :: s)]

theorem seenAfter_dedupGo (xs : List (List Char)) :
    ∀ s, seenAfter s (dedupGo s xs) = seenAfter s xs := by
  induction xs with
  | nil => intro s; rfl
  | cons l ls ih =>
    intro s
    rw [dedupGo_cons, seenAfter_cons]
    cases hk : lineKey l with
    | none =>
      show seenAfter s (l :: dedupGo s ls) = seenAfter s ls
      rw [seenAfter_cons, hk, ih s]
    | some k =>
      dsimp only
      by_cases hks : k ∈ s
      · rw [if_pos hks, if_pos hks]
        exact ih s
      · rw [if_neg hks, if_neg hks]
        show seenAfter s (l :: dedupGo (k :: s) ls) = seenAfter (k :: s) ls
        rw [seenAfter_cons, hk]
        dsimp only
        rw [if_neg hks, ih (k :: s)]

theorem subset_seenAfter (xs : List (List Char)) :
    ∀ s, s ⊆ seenAfter s xs := by
  induction xs with
  | nil => intro s; exact List.Subset.refl s
  | cons l ls ih =>
    intro s
    rw [seenAfter_cons]
    cases hk : lineKey l with
    | none => exact ih s
    | some k =>
      dsimp only
      by_cases hks : k ∈ s
      · rw [if_pos hks]
        exact ih s
      · rw [if_neg hks]
        exact List.Subset.trans (List.subset_cons_self k s) (ih (k :: s))

theorem key_mem_seenAfter (xs : List (List Char)) :
    ∀ (s : List (List Char)) (l k : List Char), l ∈ xs → lineKey l = some k →
      k ∈ seenAfter s xs := by
  induction xs with
  | nil => intro s l k hl _; exact absurd hl (List.not_mem_nil l)
  | cons a ls ih =>
    intro s l k hl hk
    rw [seenAfter_cons]
    rcases List.mem_cons.mp hl with rfl | hl'
    · rw [hk]
      dsimp only
      by_cases hks : k ∈ s
      · rw [if_pos hks]
        exact subset_seenAfter ls s hks
      · rw [if_neg hks]
        exact subset_seenAfter ls (k :: s) (List.mem_cons_self k s)
    · cases ha : lineKey a with
      | none => exact ih s l k hl' hk
      | some k' =>
        dsimp only
        by_cases hks : k' ∈ s
        · rw [if_pos hks]
          exact ih s l k hl' hk
        · rw [if_neg hks]
          exact ih (k' :: s) l k hl' hk

theorem dedupGo_all_seen (ys : List (List Char)) :
    ∀ s, (∀ l ∈ ys, ∀ k, lineKey l = some k → k ∈ s) →
      dedupGo s ys = ys.filter (fun l => (lineKey l).isNone) := by
  induction ys with
  | nil => intro s _; rfl
  | cons l ls ih =>
    intro s hcov
    rw [dedupGo_cons]
    cases hk : lineKey l with
    | none =>
      rw [List.filter_cons_of_pos (by rw [hk]; rfl)]
      rw [ih s (fun x hx => hcov x (List.mem_cons_of_mem _ hx))]
    | some k =>
      dsimp only
      have hks : k ∈ s := hcov l (List.mem_cons_self _ _) k hk
      rw [if_pos hks, List.filter_cons_of_neg (by rw [hk]; simp)]
      exact ih s (fun x hx => hcov x (List.mem_cons_of_mem _ hx))

theorem filter_entry_filter_none (ys : List (List Char)) :
    (ys.filter (fun l => (lineKey l).isNone)).filter isEntryLine = [] := by
  rw [List.eq_nil_iff_forall_not_mem]
  intro l hl
  have h1 := List.mem_filter.mp hl
  have h2 := List.mem_filter.mp h1.1
  have h3 := h1.2
  have h4 := h2.2
  unfold isEntryLine at h3
  cases hk : lineKey l with
  | none => rw [hk] at h3; exact Bool.noConfusion h3
  | some k => rw [hk] at h4; exact Bool.noConfusion h4

theorem dedupGo_subset (ls : List (List Char)) :
    ∀ s l, l ∈ dedupGo s ls → l ∈ ls := by
  induction ls with
  | nil => intro s l h; exact absurd h (List.not_mem_nil l)
  | cons a as ih =>
    intro s l h
    cases hk : lineKey a with
    | none =>
      rw [dedupGo_cons, hk] at h
      rcases List.mem_cons.mp h with rfl | h'
      · exact List.mem_cons_self _ _
      · exact List.mem_cons_of_mem _ (ih s l h')
    | some k =>
      rw [dedupGo_cons, hk] at h
      dsimp only at h
      by_cases hks : k ∈ s
      · rw [if_pos hks] at h
        exact List.mem_cons_of_mem _ (ih s l h)
      · rw [if_neg hks] at h
        rcases List.mem_cons.mp h with rfl | h'
        · exact List.mem_cons_self _ _
        · exact List.mem_cons_of_mem _ (ih (k :: s) l h')

theorem dedupGo_nil_ne_nil {ls : List (List Char)} (h : ls ≠ []) :
    dedupGo [] ls ≠ [] := by
  cases ls with
  | nil => exact absurd rfl h
  | cons l ls =>
    rw [dedupGo_cons]
    cases hk : lineKey l with
    | none => simp
    | some k =>
      dsimp only
      rw [if_neg (List.not_mem_nil k)]
      simp

theorem dedup_append_absorb (D E : List (List Char)) :
    dedupGo [] (dedupGo [] (D ++ E) ++ E) =
      dedupGo [] (D ++ E) ++ E.filter (fun l => (lineKey l).isNone) := by
  rw [dedupGo_append, dedupGo_dedupGo, seenAfter_dedupGo]
  congr 1
  apply dedupGo_all_seen
  intro l hl k hk
  exact key_mem_seenAfter (D ++ E) [] l k (List.mem_append_right D hl) hk

theorem entryLines_joinNl (ls : List (List Char)) (h : ∀ l ∈ ls, '\n' ∉ l)
    (hne : ls ≠ []) :
    entryLines (joinNl ls ++ ['\n']) = ls.filter isEntryLine := by
  unfold entryLines
  rw [splitNl_append_nl, splitNl_joinNl ls h hne]
  rw [show splitNl ([] : List Char) = [[]] from rfl, List.filter_append]
  rw [show List.filter isEntryLine [[]] = [] from by decide, List.append_nil]

theorem mergeText_nil (x : List Char) : mergeText x [] = rstrip x ++ ['\n'] := by
  show (rstrip x ++ joinTail "\n* ".data []) ++ ['\n'] = _
  rw [show joinTail "\n* ".data ([] : List (List Char)) = [] from rfl,
    List.append_nil]

theorem merge_lines_eq (x e : List Char) (es' : List (List Char)) :
    splitNl (rstrip (mergeText x (e :: es'))) =
      splitNl (rstrip x) ++
        splitNl (rstrip (('*' :: ' ' :: (e ++ joinTail "\n* ".data es')) ++
          ['\n'])) := by
  have hdecomp : mergeText x (e :: es') =
      rstrip x ++ '\n' :: (('*' :: ' ' :: (e ++ joinTail "\n* ".data es')) ++
        ['\n']) := by
    show (rstrip x ++ joinTail "\n* ".data (e :: es')) ++ ['\n'] = _
    rw [List.append_assoc]
    rfl
  rw [hdecomp]
  have hstarB : '*' ∈ ('*' :: ' ' :: (e ++ joinTail "\n* ".data es')) ++ ['\n'] :=
    List.mem_append.mpr (Or.inl (List.mem_cons_self _ _))
  have h1 := rstrip_append_right (rstrip x)
    ('\n' :: (('*' :: ' ' :: (e ++ joinTail "\n* ".data es')) ++ ['\n']))
    '*' (List.mem_cons_of_mem _ hstarB) (by decide)
  have h2 : rstrip ('\n' :: (('*' :: ' ' :: (e ++ joinTail "\n* ".data es')) ++
      ['\n'])) = '\n' :: rstrip (('*' :: ' ' :: (e ++ joinTail "\n* ".data es')) ++
      ['\n']) :=
    rstrip_append_right ['\n']
      (('*' :: ' ' :: (e ++ joinTail "\n* ".data es')) ++ ['\n'])
      '*' hstarB (by decide)
  rw [h1, h2, splitNl_append_nl]

/-! ### Claim C5 (amended) -/

/-- C5 (amended): provided the merged document is its own right-strip plus a
single newline (its last kept line carries no trailing whitespace), a second
merge with the same entry batch leaves the entry lines unchanged.  Without
that proviso the claim fails (see the counterexample): the second merge's
right-strip can alter the final entry line's trailing whitespace. -/
theorem c5_merge_idempotent_of_clean_tail (d : List Char)
    (es : List (List Char))
    (H : rstrip (merge d es) ++ ['\n'] = merge d es) :
    entryLines (merge (merge d es) es) = entryLines (merge d es) := by
  cases es with
  | nil =>
    have hKnoNl : ∀ l ∈ dedupGo [] (splitNl (rstrip (mergeText d []))), '\n' ∉ l :=
      fun l hl => noNl_of_mem_splitNl (dedupGo_subset _ [] l hl)
    have hKne : dedupGo [] (splitNl (rstrip (mergeText d []))) ≠ [] :=
      dedupGo_nil_ne_nil (splitNl_ne_nil _)
    have hA : rstrip (joinNl (dedupGo [] (splitNl (rstrip (mergeText d [])))) ++
        ['\n']) = joinNl (dedupGo [] (splitNl (rstrip (mergeText d [])))) := by
      have h' : rstrip (merge d []) ++ ['\n'] =
          joinNl (dedupGo [] (splitNl (rstrip (mergeText d [])))) ++ ['\n'] := H
      exact List.append_cancel_right h'
    have heq : merge (merge d []) [] = merge d [] := by
      show joinNl (dedupGo [] (splitNl (rstrip (mergeText (merge d []) [])))) ++
        ['\n'] = merge d []
      rw [mergeText_nil (merge d [])]
      rw [show rstrip (merge d []) =
        joinNl (dedupGo [] (splitNl (rstrip (mergeText d [])))) from hA]
      rw [hA, splitNl_joinNl _ hKnoNl hKne, dedupGo_dedupGo]
      rfl
    rw [heq]
  | cons e es' =>
    have hKnoNl : ∀ l ∈ dedupGo [] (splitNl (rstrip (mergeText d (e :: es')))),
        '\n' ∉ l :=
      fun l hl => noNl_of_mem_splitNl (dedupGo_subset _ [] l hl)
    have hKne : dedupGo [] (splitNl (rstrip (mergeText d (e :: es')))) ≠ [] :=
      dedupGo_nil_ne_nil (splitNl_ne_nil _)
    have hA : rstrip (merge d (e :: es')) =
        joinNl (dedupGo [] (splitNl (rstrip (mergeText d (e :: es'))))) := by
      have h' : rstrip (merge d (e :: es')) ++ ['\n'] =
          joinNl (dedupGo [] (splitNl (rstrip (mergeText d (e :: es'))))) ++
            ['\n'] := H
      exact List.append_cancel_right h'
    have hL2 : splitNl (rstrip (mergeText (merge d (e :: es')) (e :: es'))) =
        dedupGo [] (splitNl (rstrip (mergeText d (e :: es')))) ++
          splitNl (rstrip (('*' :: ' ' :: (e ++ joinTail "\n* ".data es')) ++
            ['\n'])) := by
      rw [merge_lines_eq, hA, splitNl_joinNl _ hKnoNl hKne]
    have hKeq : dedupGo [] (splitNl (rstrip (mergeText d (e :: es')))) =
        dedupGo [] (splitNl (rstrip d) ++
          splitNl (rstrip (('*' :: ' ' :: (e ++ joinTail "\n* ".data es')) ++
            ['\n']))) := by
      rw [merge_lines_eq]
    have hD : dedupGo [] (splitNl (rstrip (mergeText (merge d (e :: es'))
        (e :: es')))) =
        dedupGo [] (splitNl (rstrip (mergeText d (e :: es')))) ++
          (splitNl (rstrip (('*' :: ' ' :: (e ++ joinTail "\n* ".data es')) ++
            ['\n']))).filter (fun l => (lineKey l).isNone) := by
      rw [hL2, hKeq]
      exact dedup_append_absorb _ _
    have hnoNl2 : ∀ l ∈ dedupGo [] (splitNl (rstrip (mergeText d (e :: es')))) ++
        (splitNl (rstrip (('*' :: ' ' :: (e ++ joinTail "\n* ".data es')) ++
          ['\n']))).filter (fun l => (lineKey l).isNone), '\n' ∉ l := by
      intro l hl
      rcases List.mem_append.mp hl with h' | h'
      · exact hKnoNl l h'
      · exact noNl_of_mem_splitNl (List.mem_of_mem_filter h')
    have hne2 : dedupGo [] (splitNl (rstrip (mergeText d (e :: es')))) ++
        (splitNl (rstrip (('*' :: ' ' :: (e ++ joinTail "\n* ".data es')) ++
          ['\n']))).filter (fun l => (lineKey l).isNone) ≠ [] := by
      intro hcon
      exact hKne (List.append_eq_nil.mp hcon).1
    have hE2 : entryLines (merge (merge d (e :: es')) (e :: es')) =
        (dedupGo [] (splitNl (rstrip (mergeText d (e :: es')))) ++
          (splitNl (rstrip (('*' :: ' ' :: (e ++ joinTail "\n* ".data es')) ++
            ['\n']))).filter (fun l => (lineKey l).isNone)).filter
          isEntryLine := by
      show entryLines (joinNl (dedupGo [] (splitNl (rstrip
        (mergeText (merge d (e :: es')) (e :: es'))))) ++ ['\n']) = _
      rw [hD]
      exact entryLines_joinNl _ hnoNl2 hne2
    have hE1 : entryLines (merge d (e :: es')) =
        (dedupGo [] (splitNl (rstrip (mergeText d (e :: es'))))).filter
          isEntryLine := by
      show entryLines (joinNl (dedupGo [] (splitNl (rstrip
        (mergeText d (e :: es'))))) ++ ['\n']) = _
      exact entryLines_joinNl _ hKnoNl hKne
    rw [hE2, hE1, List.filter_append, filter_entry_filter_none, List.append_nil]

/-- C5 witness: the amended idempotence at a concrete document and batch
whose merged result has no trailing whitespace before its final newline. -/
theorem c5_merge_idempotent_of_clean_tail_witness :
    entryLines (merge (merge "* a".data ["b".data]) ["b".data]) =
      entryLines (merge "* a".data ["b".data]) :=
  c5_merge_idempotent_of_clean_tail "* a".data ["b".data] (by decide)

end ReadingList

section SanityChecks
open ReadingList

example : entry_for { body := some "http://example.com/foo bar baz".data } =
    some "http://example.com/foo bar baz".data := by decide

example :
    entry_for
        { body := some "http://en.wikipedia.org/wiki/Foo_Bar".data
          subject := some "Foo Bar Article".data
          date := some "Mon, 1 Jan 2024".data } =
      some "\x7b\x7bat|Mon, 1 Jan 2024\x7d\x7d [[wikipedia:Foo Bar]] \x27\x27<q>Foo Bar Article</q>\x27\x27".data := by
  decide

example : entry_for { body := some "   ".data } = none := by decide

example : entry_for { body := some "ftp://x file".data, subject := some "S".data } =
    none := by decide

example : entry_for { body := some "<>".data, subject := some "Hi".data } = none := by
  decide

example : entry_for { body := some "<> x".data } = some " x".data := by decide

example : rw3 "?igshid=a?igshid=b".data = "?igshid=b".data := by decide

example : rw3 (rw3 "?igshid=a?igshid=b".data) = [] := by decide

example : applyRewrites "https://youtu.be/abc".data =
    "https://www.youtube.com/watch?v=abc".data := by decide

example : merge "* a".data ["b".data] = "* a\n* b\n".data := by decide

example : merge "* a\n* b".data ["a".data, "c".data] = "* a\n* b\n* c\n".data := by
  decide

example :
    merge "* a\n* x \n* a".data ["a".data] = "* a\n* x \n".data := by decide

example :
    merge (merge "* a\n* x \n* a".data ["a".data]) ["a".data] =
      "* a\n* x\n".data := by decide

example : merge "text\n* \x7b\x7bat|d\x7d\x7d x".data ["x".data] = "text\n* \x7b\x7bat|d\x7d\x7d x\n".data := by
  decide

example :
    run [{ body := some "http://a".data, uid := 3 }] [] true =
      [Event.append "http://a".data, Event.store 3,
       Event.put "\n* http://a\n".data, Event.expunge] := by decide

example :
    run [{ body := some "http://a".data, uid := 3 }] [] false =
      [Event.append "http://a".data, Event.store 3,
       Event.put "\n* http://a\n".data] := by decide

example : run [{ subject := some "s".data }] "* a".data true = [] := by decide

end SanityChecks
